import Mathlib

/-!
Shallow embedding of `src/pytailer.py` (class `LogWatcher`).

File contents are byte lists (`List Nat`, newline = 10); paths are `List Char`.
The filesystem is modelled as an inode table (identity → bytes) plus a path
table (path → entry), so that an open handle keeps reading the storage object
it was opened on even after the path is re-pointed (rotation), exactly as a
POSIX file descriptor does.  Fallible operations return `Except PyErr`; the
`while` loops of the source are embedded with an explicit fuel argument
(`none` = the loop is still running after `fuel` iterations), so that every
definition is executable and termination is a provable statement rather than
an assumption.
-/

set_option linter.unusedVariables false
set_option maxRecDepth 8192

/-- Block size of the backward tail scan (`BUFSIZ = 1024`, line 119). -/
def BUFSIZ : Nat := 1024

/-- Python `bytes.splitlines()` (keepends = False) restricted to newline (10)
separators: carriage returns do not occur in any content the claims concern.
`splitlines [] = []`, a trailing newline does not produce an extra empty line. -/
def splitlines : List Nat → List (List Nat)
  | [] => []
  | 10 :: rest => [] :: splitlines rest
  | c :: rest =>
    match splitlines rest with
    | [] => [[c]]
    | l :: ls => (c :: l) :: ls

/-- Python `bytes.splitlines(True)` / the line splitting performed by
`file.readlines`: like `splitlines` but each line keeps its terminating
newline; a final unterminated chunk is returned as a (partial) line. -/
def splitKeepNL : List Nat → List (List Nat)
  | [] => []
  | 10 :: rest => [10] :: splitKeepNL rest
  | c :: rest =>
    match splitKeepNL rest with
    | [] => [[c]]
    | l :: ls => (c :: l) :: ls

/-- Python `l[-n:]` for `n ≥ 1`: the last `n` elements (all of them when
`n ≥ l.length`). -/
def takeLast (n : Nat) (l : List α) : List α := l.drop (l.length - n)

/-- Python `file.readlines(sizehint)` stopping rule: whole lines are
accumulated until their total size reaches `sizehint` (the first line is
always taken). -/
def takeHint : List (List Nat) → Nat → List (List Nat)
  | [], _ => []
  | l :: rest, hint => if hint ≤ l.length then [l] else l :: takeHint rest (hint - l.length)

/-- Python `file.readlines(sizehint)` on the bytes remaining after the
handle's position: split into newline-terminated lines and stop once the
total returned size reaches `sizehint`. -/
def fileReadlines (bytes : List Nat) (sizehint : Nat) : List (List Nat) :=
  takeHint (splitKeepNL bytes) sizehint

/-- The `while not exit` backward scan of `LogWatcher.tail` (lines 128–143).
`k` is the negated block index (`block = -k`, starting at `k = 1`), `data`
the buffer grown so far.  One fuel unit per loop iteration, `none` when the
fuel is exhausted.  Final step (`abs(step) >= fsize`): seek to 0 and read
`BUFSIZ - (abs(step) - fsize)` bytes (on every reachable state
`abs(step) - fsize < BUFSIZ`, so the truncated subtraction agrees with the
source).  Otherwise read `BUFSIZ` bytes ending `BUFSIZ * (k-1)` bytes before
end-of-file.  New data is prepended, and the loop breaks early as soon as
`data` holds at least `window` newlines. -/
def tailScan (content : List Nat) (window : Nat) : Nat → Nat → List Nat → Option (List Nat)
  | 0, _, _ => none
  | fuel + 1, k, data =>
    let fsize := content.length
    let stepAbs := k * BUFSIZ
    if fsize ≤ stepAbs then
      some (content.take (BUFSIZ - (stepAbs - fsize)) ++ data)
    else
      let data' := (content.drop (fsize - stepAbs)).take BUFSIZ ++ data
      if window ≤ data'.count 10 then some data'
      else tailScan content window fuel (k + 1) data'

/-- File identity: `get_file_id` on POSIX returns `"%xg%x" % (st_dev, st_ino)`,
an injective encoding of the pair, modelled as the pair itself. -/
abbrev Fid := Nat × Nat

/-- Python exceptions the embedded code can raise. -/
inductive PyErr where
  /-- `EnvironmentError` with `errno == ENOENT` (file not found). -/
  | ioENOENT
  /-- any other `EnvironmentError` (permission denied, is-a-directory, …). -/
  | ioOther
  /-- `ValueError` with its message. -/
  | valueError (msg : String)
  /-- `TypeError` (wrong call arity). -/
  | typeError
deriving DecidableEq

/-- What a path currently names in the filesystem. -/
inductive PathEntry where
  /-- a regular file with identity `fid` -/
  | reg (fid : Fid)
  /-- an existing non-regular node (directory, socket, …) with identity `fid` -/
  | nonreg (fid : Fid)
  /-- a node on which `stat`/`open` fail with a non-ENOENT error -/
  | denied
deriving DecidableEq

/-- The filesystem: storage objects keyed by identity, plus the current
path table.  A rotated-away inode stays in `inodes` (an open handle keeps
it alive) while `paths` points its old name at the replacement. -/
structure Fs where
  inodes : List (Fid × List Nat)
  paths : List (List Char × PathEntry)

/-- Result of `os.stat`. -/
structure Stat where
  st_dev : Nat
  st_ino : Nat
  /-- `stat.S_ISREG(st.st_mode)` -/
  isReg : Bool
deriving DecidableEq

/-- `os.stat(path)`: ENOENT when the path is absent, another
`EnvironmentError` on a denied node. -/
def statPath (fs : Fs) (name : List Char) : Except PyErr Stat :=
  match List.lookup name fs.paths with
  | none => .error .ioENOENT
  | some .denied => .error .ioOther
  | some (.reg (d, i)) => .ok ⟨d, i, true⟩
  | some (.nonreg (d, i)) => .ok ⟨d, i, false⟩

/-- `LogWatcher.open` (= `open(file, 'rb')`) combined with the `os.stat` the
callers perform on the same path: yields the identity of the regular file the
handle now reads, ENOENT when absent, another error otherwise (opening a
non-regular node fails with a non-ENOENT `EnvironmentError`).  A freshly
opened handle is at position 0. -/
def openPath (fs : Fs) (name : List Char) : Except PyErr Fid :=
  match List.lookup name fs.paths with
  | none => .error .ioENOENT
  | some .denied => .error .ioOther
  | some (.reg fid) => .ok fid
  | some (.nonreg _) => .error .ioOther

/-- The bytes an open handle on storage object `fid` can currently see. -/
def fsContent (fs : Fs) (fid : Fid) : List Nat :=
  (List.lookup fid fs.inodes).getD []

/-- `os.path.getsize(name)` (follows the path, not a handle). -/
def getsize (fs : Fs) (name : List Char) : Except PyErr Nat :=
  match List.lookup name fs.paths with
  | none => .error .ioENOENT
  | some .denied => .error .ioOther
  | some (.reg fid) => .ok (fsContent fs fid).length
  | some (.nonreg _) => .ok 0

/-- `LogWatcher.get_file_id` (lines 218–223), POSIX branch: the string
`"%xg%x" % (st_dev, st_ino)` is an injective encoding of the pair, modelled
as the pair. -/
def get_file_id (st : Stat) : Fid := (st.st_dev, st.st_ino)

/-- `LogWatcher.tail(fname, window)` (lines 113–144): reject `window <= 0`
with a `ValueError` before touching the file, then open the file and run the
backward block scan; finally split the scanned buffer into lines and return
the last `window` of them.  The scan is given `content.length + 1` fuel units;
`none` would mean the loop is still running after that many iterations
(proved impossible below). -/
def tail (fs : Fs) (fname : List Char) (window : Int) : Option (Except PyErr (List (List Nat))) :=
  if window ≤ 0 then some (.error (.valueError ("invalid window value " ++ toString window)))
  else
    match openPath fs fname with
    | .error e => some (.error e)
    | .ok fid =>
      let content := fsContent fs fid
      match tailScan content window.toNat (content.length + 1) 1 [] with
      | none => none
      | some data => some (.ok (takeLast window.toNat (splitlines data)))

/-- Decidable equality for `Except`, needed to evaluate results of the
embedded fallible operations on concrete inputs. -/
instance {ε α : Type _} [DecidableEq ε] [DecidableEq α] : DecidableEq (Except ε α) := fun x y =>
  match x, y with
  | .error a, .error b =>
    if h : a = b then isTrue (h ▸ rfl) else isFalse fun hh => h (by injection hh)
  | .error _, .ok _ => isFalse fun hh => by injection hh
  | .ok _, .error _ => isFalse fun hh => by injection hh
  | .ok a, .ok b =>
    if h : a = b then isTrue (h ▸ rfl) else isFalse fun hh => h (by injection hh)

/-- Events observable at the callback / handle boundary, in program order. -/
inductive Ev where
  /-- `self._callback(file.name, lines, _type)` — the three-argument call
  made by `LogWatcher.readlines` (line 194). -/
  | cb3 (path : List Char) (lines : List (List Nat)) (typ : Nat)
  /-- `self._callback(file.name, lines)` — the two-argument call made by the
  constructor's tail delivery (line 65). -/
  | cb2 (path : List Char) (lines : List (List Nat))
  /-- the open handle on `path` is closed (`with file:` exit, line 212). -/
  | closed (path : List Char)
deriving DecidableEq

/-- A watched file: `self._files_map[fid] = [file, _type]` — the open handle
(`name` = `file.name`, `pos` = the handle's read position) and the caller's
opaque metadata (modelled as `Nat`). -/
structure WFile where
  name : List Char
  pos : Nat
  typ : Nat
deriving DecidableEq

/-- The mutable state of a `LogWatcher` instance: the configured
`(name template, metadata)` list, `self._files_map` (insertion-ordered dict,
keyed by file identity) and `self._sizehint`. -/
structure LW where
  filelist : List (List Char × Nat)
  files_map : List (Fid × WFile)
  sizehint : Nat
deriving DecidableEq

/-- Python dict assignment `m[fid] = wf` (overwrite or append). -/
def mapInsert (fid : Fid) (wf : WFile) : List (Fid × WFile) → List (Fid × WFile)
  | [] => [(fid, wf)]
  | (k, v) :: rest => if k = fid then (fid, wf) :: rest else (k, v) :: mapInsert fid wf rest

/-- Python `del m[fid]` (dict keys are unique, one removal suffices). -/
def mapErase (fid : Fid) : List (Fid × WFile) → List (Fid × WFile)
  | [] => []
  | (k, v) :: rest => if k = fid then rest else (k, v) :: mapErase fid rest

/-- Python `name.find(c)`: index of the first occurrence.  The source only
uses it on characters known to be present (`'{'`) or, for `'}'`, on templates
that are well formed; absent characters (where Python returns -1, and the
regex at line 151 would fail to match and raise) are outside the modelled
scope, and the model returns the list length there. -/
def pyFind (c : Char) : List Char → Nat
  | [] => 0
  | a :: rest => if a = c then 0 else pyFind c rest + 1

/-- Template expansion of `update_files` (lines 149–152): when the name
contains `{`, format the text between the first `{` and the first `}` with
`strftime` (the injected time formatter) and replace the whole `{…}` segment
with the result — the regex `^(.*)\{.*\}(.*)$` captures the text before the
placeholder and after it, which for a single `{fmt}` segment is the text
before the first `{` and after the first `}`. -/
def resolveName (strftime : List Char → List Char) (name : List Char) : List Char :=
  if '{' ∈ name then
    let i := pyFind '{' name
    let j := pyFind '}' name
    let fmt := (name.drop (i + 1)).take (j - (i + 1))
    name.take i ++ strftime fmt ++ name.drop (j + 1)
  else name

/-- Phase 1 of `update_files` (lines 147–163): resolve every configured
entry, `os.path.realpath` it (modelled as the identity — paths are already
absolute and symlink-free), `stat` it; ENOENT is swallowed (entry skipped),
any other `EnvironmentError` propagates; non-regular files are skipped;
surviving entries are recorded as `(identity, path, metadata)` candidates in
order. -/
def collect (strftime : List Char → List Char) (fs : Fs) :
    List (List Char × Nat) → Except PyErr (List (Fid × List Char × Nat))
  | [] => .ok []
  | (name, typ) :: rest =>
    let absname := resolveName strftime name
    match statPath fs absname with
    | .error .ioENOENT => collect strftime fs rest
    | .error e => .error e
    | .ok st =>
      if st.isReg then
        match collect strftime fs rest with
        | .error e => .error e
        | .ok ls => .ok ((get_file_id st, absname, typ) :: ls)
      else collect strftime fs rest

/-- `LogWatcher.readlines(file, _type)` (lines 186–194): repeatedly call
`file.readlines(self._sizehint)` and pass each non-empty batch to the
callback with three arguments, until a read returns no lines.  `content` is
what the handle's storage object holds, `pos` the handle position; the result
is the emitted events and the final handle position (`none` = the `while
True` loop is still running after `fuel` iterations). -/
def readlines (name : List Char) (typ : Nat) (sizehint : Nat) (content : List Nat) :
    Nat → Nat → Option (List Ev × Nat)
  | 0, _ => none
  | fuel + 1, pos =>
    let lines := fileReadlines (content.drop pos) sizehint
    if lines = [] then some ([], pos)
    else
      match readlines name typ sizehint content fuel (pos + lines.flatten.length) with
      | none => none
      | some (evs, p) => some (Ev.cb3 name lines typ :: evs, p)

/-- `LogWatcher.watch(fname, _type)` (lines 196–205): open the file (handle
position 0) and stat it; ENOENT from either is swallowed (no watch created,
state unchanged), any other error propagates; on success the handle and
metadata are stored under the file's identity. -/
def watch (fs : Fs) (lw : LW) (fname : List Char) (typ : Nat) : Except PyErr LW :=
  match openPath fs fname with
  | .error .ioENOENT => .ok lw
  | .error e => .error e
  | .ok fid => .ok { lw with files_map := mapInsert fid ⟨fname, 0, typ⟩ lw.files_map }

/-- `LogWatcher.unwatch(file, fid)` (lines 207–216): inside `with file:`,
run one final `readlines` (delivering any pending lines via the callback),
then delete the map entry, then close the handle at the `with` exit.  The
`lines` binding at line 213 receives `readlines`'s return value, which is
always `None`, so the guarded two-argument callback at lines 215–216 is dead
code and emits nothing.  The metadata is read back from the map entry
(`self._files_map[fid][1]`), which is exactly `wf.typ` for the entry the
callers pass in. -/
def unwatch (fs : Fs) (lw : LW) (fid : Fid) (wf : WFile) : Option (List Ev × LW) :=
  let content := fsContent fs fid
  match readlines wf.name wf.typ lw.sizehint content (content.length + 1) wf.pos with
  | none => none
  | some (evs, _) =>
    some (evs ++ [Ev.closed wf.name], { lw with files_map := mapErase fid lw.files_map })

/-- Phase 2 of `update_files` (lines 165–179), iterating over a snapshot of
the map: re-`stat` each watched path; ENOENT → `unwatch`; any other stat
error propagates; identity changed (rotation) → `unwatch` then
`self.watch(file.name)` — a call with one argument to the two-argument method
`watch(fname, _type)`, which raises `TypeError` (the events emitted before
the exception are preserved). -/
def phase2 (fs : Fs) : List (Fid × WFile) → LW → Option (List Ev × Except PyErr LW)
  | [], lw => some ([], .ok lw)
  | (fid, wf) :: rest, lw =>
    match statPath fs wf.name with
    | .error .ioENOENT =>
      match unwatch fs lw fid wf with
      | none => none
      | some (evs, lw') =>
        match phase2 fs rest lw' with
        | none => none
        | some (evs2, r) => some (evs ++ evs2, r)
    | .error e => some ([], .error e)
    | .ok st =>
      if fid ≠ get_file_id st then
        match unwatch fs lw fid wf with
        | none => none
        | some (evs, _) => some (evs, .error .typeError)
      else phase2 fs rest lw

/-- Phase 3 of `update_files` (lines 181–184): watch every candidate whose
identity is not yet in the map. -/
def phase3 (fs : Fs) : List (Fid × List Char × Nat) → LW → Except PyErr LW
  | [], lw => .ok lw
  | (fid, fname, typ) :: rest, lw =>
    if (List.lookup fid lw.files_map).isSome then phase3 fs rest lw
    else
      match watch fs lw fname typ with
      | .error e => .error e
      | .ok lw' => phase3 fs rest lw'

/-- `LogWatcher.update_files()` (lines 146–184): phase 1 (collect
candidates), phase 2 (re-stat watched files, unwatch/rotate), phase 3 (watch
new candidates).  Events emitted before an exception are preserved next to
the raised error. -/
def update_files (strftime : List Char → List Char) (fs : Fs) (lw : LW) :
    Option (List Ev × Except PyErr LW) :=
  match collect strftime fs lw.filelist with
  | .error e => some ([], .error e)
  | .ok ls =>
    match phase2 fs lw.files_map lw with
    | none => none
    | some (evs, .error e) => some (evs, .error e)
    | some (evs, .ok lw') => some (evs, phase3 fs ls lw')

/-- The tail seeding of `LogWatcher.__init__` for one file (lines 57–65):
when `tail_lines` is non-zero (`if tail_lines:`), call `tail`; an `IOError`
ENOENT from it is swallowed, any other error (including the `ValueError` for
a negative count) is returned to be re-raised; a non-empty result is
delivered through the TWO-argument callback call
`self._callback(file.name, lines)` of line 65. -/
def initTailStep (fs : Fs) (tail_lines : Int) (name : List Char) :
    Option (List Ev × Option PyErr) :=
  if tail_lines ≠ 0 then
    match tail fs name tail_lines with
    | none => none
    | some (.error .ioENOENT) => some ([], none)
    | some (.error e) => some ([], some e)
    | some (.ok lines) => some (if lines.isEmpty then [] else [Ev.cb2 name lines], none)
  else some ([], none)

/-- The per-file loop of `LogWatcher.__init__` (lines 54–65): seek each
handle to `os.path.getsize(file.name)` (end-of-file by path — an error from
`getsize` is NOT caught and propagates), then run the tail seeding step. -/
def initFiles (fs : Fs) (tail_lines : Int) :
    List (Fid × WFile) → Option (List Ev × Except PyErr (List (Fid × WFile)))
  | [] => some ([], .ok [])
  | (fid, wf) :: rest =>
    match getsize fs wf.name with
    | .error e => some ([], .error e)
    | .ok sz =>
      match initTailStep fs tail_lines wf.name with
      | none => none
      | some (evs, some e) => some (evs, .error e)
      | some (evs, none) =>
        match initFiles fs tail_lines rest with
        | none => none
        | some (evs2, .error e) => some (evs ++ evs2, .error e)
        | some (evs2, .ok rest') => some (evs ++ evs2, .ok ((fid, { wf with pos := sz }) :: rest'))

/-- `LogWatcher.__init__(filelist, callback, tail_lines, sizehint)`
(lines 31–65): build the empty state, run `update_files()` once, then run
the per-file startup loop (`initFiles`). -/
def initLW (strftime : List Char → List Char) (fs : Fs) (filelist : List (List Char × Nat))
    (tail_lines : Int) (sizehint : Nat) : Option (List Ev × Except PyErr LW) :=
  let lw0 : LW := ⟨filelist, [], sizehint⟩
  match update_files strftime fs lw0 with
  | none => none
  | some (evs, .error e) => some (evs, .error e)
  | some (evs, .ok lw1) =>
    match initFiles fs tail_lines lw1.files_map with
    | none => none
    | some (evs2, .error e) => some (evs ++ evs2, .error e)
    | some (evs2, .ok m') => some (evs ++ evs2, .ok { lw1 with files_map := m' })

/-- The bytes an event hands to the callback. -/
def evBytes : Ev → List Nat
  | .cb3 _ lines _ => lines.flatten
  | .cb2 _ lines => lines.flatten
  | .closed _ => []

/-- Concatenation of all bytes delivered by a trace, in order. -/
def deliveredBytes (evs : List Ev) : List Nat := (evs.map evBytes).flatten

/-- The view of `LogWatcher.loop` (lines 76–91) from one watched file whose
identity never changes: each poll cycle first appends the producer's new
bytes to the file, then `readlines` drains the handle (`update_files` leaves
an entry with unchanged identity untouched, so its handle position carries
over from cycle to cycle). -/
def loopCycles (name : List Char) (typ : Nat) (sizehint : Nat) :
    List Nat → Nat → List (List Nat) → Option (List Ev × Nat)
  | _, pos, [] => some ([], pos)
  | content, pos, a :: rest =>
    let c' := content ++ a
    match readlines name typ sizehint c' (c'.length + 1) pos with
    | none => none
    | some (evs, pos') =>
      match loopCycles name typ sizehint c' pos' rest with
      | none => none
      | some (evs2, p) => some (evs ++ evs2, p)


/-! ### Concrete scenario inputs used by counterexamples and witnesses -/

/-- A single 1025-byte line plus its newline: 1026 bytes, spanning two scan
blocks. -/
def longLineContent : List Nat := List.replicate 1025 120 ++ [10]

/-- Filesystem holding `longLineContent` as the regular file `p`. -/
def fsLongLine : Fs := ⟨[((1, 1), longLineContent)], [(['p'], PathEntry.reg (1, 1))]⟩

/-- Filesystem holding the two-line file `a\nb\n` as the regular file `w`. -/
def fsTwoLines : Fs := ⟨[((1, 1), [97, 10, 98, 10])], [(['w'], PathEntry.reg (1, 1))]⟩

/-- Filesystem holding an empty regular file `e`. -/
def fsEmptyFile : Fs := ⟨[((1, 1), [])], [(['e'], PathEntry.reg (1, 1))]⟩

/-- Filesystem with one denied path `d` (stat/open raise a non-ENOENT error);
every other path, e.g. `m`, is absent (ENOENT). -/
def fsDeniedMissing : Fs := ⟨[], [(['d'], PathEntry.denied)]⟩

/-- Rotation scenario: the watcher holds the old storage object `(1,8)`
(content `L1\n`, written before rotation, cursor still at 0) under path `l`,
but the path now names the replacement file `(1,9)` with content `NEW\n`. -/
def lwRotated : LW := ⟨[(['l'], 7)], [((1, 8), ⟨['l'], 0, 7⟩)], 1048576⟩

/-- The filesystem for the rotation scenario: both storage objects live, the
path points at the new one. -/
def fsRotated : Fs :=
  ⟨[((1, 8), [76, 49, 10]), ((1, 9), [78, 69, 87, 10])], [(['l'], PathEntry.reg (1, 9))]⟩

/-- Watcher state owning the two-line file of `fsTwoLines` with cursor 2. -/
def lwTwoLines : LW := ⟨[], [((1, 1), ⟨['w'], 2, 3⟩)], 100⟩

/-- Filesystem for the startup-tail scenario: the regular file `g` holds the
single line `a\n`. -/
def fsInitTail : Fs := ⟨[((1, 2), [97, 10])], [(['g'], PathEntry.reg (1, 2))]⟩

/-- Filesystem for the new-file scenario: the regular file `n` holds the two
bytes `hi` (no newline). -/
def fsNewFile : Fs := ⟨[((2, 5), [104, 105])], [(['n'], PathEntry.reg (2, 5))]⟩

/-! ### Helper lemmas about the line primitives -/

theorem takeLast_min (n : Nat) (l : List α) : takeLast n l = takeLast (min n l.length) l := by
  unfold takeLast
  congr 1
  omega

theorem takeLast_of_length_le {n : Nat} {l : List α} (h : l.length ≤ n) : takeLast n l = l := by
  unfold takeLast
  have h0 : l.length - n = 0 := by omega
  rw [h0, List.drop_zero]

theorem length_splitlines_le (l : List Nat) : (splitlines l).length ≤ l.count 10 + 1 := by
  induction l with
  | nil => simp [splitlines]
  | cons c rest ih =>
    by_cases hc : c = 10
    · subst hc
      simp only [splitlines, if_pos rfl, List.length_cons, List.count_cons_self]
      omega
    · simp only [splitlines, if_neg hc]
      rw [List.count_cons_of_ne (by omega : (10 : Nat) ≠ c)]
      cases hs : splitlines rest with
      | nil => simp
      | cons a as =>
        rw [hs] at ih
        simp only [List.length_cons] at ih ⊢
        omega

theorem splitlines_append_nl {l : List Nat} (h : 10 ∉ l) : splitlines (l ++ [10]) = [l] := by
  induction l with
  | nil => simp [splitlines]
  | cons c rest ih =>
    have hc : c ≠ 10 := fun hh => h (hh ▸ List.mem_cons_self c rest)
    have hrest : 10 ∉ rest := fun hh => h (List.mem_cons_of_mem c hh)
    simp only [List.cons_append, splitlines, if_neg hc, ih hrest]

/-! ### Helper lemmas about the tail backward scan -/

theorem tailScan_succ (content : List Nat) (w fuel k : Nat) (data : List Nat) :
    tailScan content w (fuel + 1) k data =
      if content.length ≤ k * BUFSIZ then
        some (content.take (BUFSIZ - (k * BUFSIZ - content.length)) ++ data)
      else if w ≤ ((content.drop (content.length - k * BUFSIZ)).take BUFSIZ ++ data).count 10 then
        some ((content.drop (content.length - k * BUFSIZ)).take BUFSIZ ++ data)
      else tailScan content w fuel (k + 1)
        ((content.drop (content.length - k * BUFSIZ)).take BUFSIZ ++ data) := rfl

theorem tailScan_isSome (content : List Nat) (w : Nat) :
    ∀ fuel k data, content.length ≤ BUFSIZ * (k + fuel) →
      (tailScan content w (fuel + 1) k data).isSome = true := by
  intro fuel
  induction fuel with
  | zero =>
    intro k data h
    simp only [tailScan]
    split
    · rfl
    · next hlt =>
      exfalso
      simp only [BUFSIZ] at h hlt
      omega
  | succ n ih =>
    intro k data h
    simp only [tailScan]
    split
    · rfl
    · split
      · rfl
      · refine ih (k + 1) _ ?_
        simp only [BUFSIZ] at h ⊢
        omega

theorem tailScan_single (content : List Nat) (w : Nat) (fuel : Nat)
    (h : content.length ≤ BUFSIZ) : tailScan content w (fuel + 1) 1 [] = some content := by
  simp only [tailScan]
  rw [if_pos (by simpa [BUFSIZ] using h)]
  have h1 : BUFSIZ - (1 * BUFSIZ - content.length) = content.length := by
    simp only [BUFSIZ] at h ⊢
    omega
  rw [h1, List.take_length, List.append_nil]

theorem tailScan_whole (content : List Nat) (w : Nat) (hw : content.count 10 < w) :
    ∀ fuel k', BUFSIZ * k' ≤ content.length →
      content.length ≤ BUFSIZ * (k' + 1 + fuel) →
      tailScan content w (fuel + 1) (k' + 1)
        (content.drop (content.length - BUFSIZ * k')) = some content := by
  intro fuel
  induction fuel with
  | zero =>
    intro k' hk hb
    rw [tailScan_succ]
    simp only [BUFSIZ] at hk hb ⊢
    rw [if_pos (by omega)]
    have h1 : 1024 - ((k' + 1) * 1024 - content.length) = content.length - 1024 * k' := by
      omega
    rw [h1, List.take_append_drop]
  | succ n ih =>
    intro k' hk hb
    rw [tailScan_succ]
    simp only [BUFSIZ] at hk hb ⊢
    by_cases hfin : content.length ≤ (k' + 1) * 1024
    · rw [if_pos hfin]
      have h1 : 1024 - ((k' + 1) * 1024 - content.length) = content.length - 1024 * k' := by
        omega
      rw [h1, List.take_append_drop]
    · rw [if_neg hfin]
      have hdata : (content.drop (content.length - (k' + 1) * 1024)).take 1024 ++
          content.drop (content.length - 1024 * k') =
          content.drop (content.length - (k' + 1) * 1024) := by
        have hdd : content.drop (content.length - 1024 * k') =
            (content.drop (content.length - (k' + 1) * 1024)).drop 1024 := by
          rw [List.drop_drop]
          congr 1
          omega
        rw [hdd, List.take_append_drop]
      rw [hdata]
      have hcnt : (content.drop (content.length - (k' + 1) * 1024)).count 10 < w :=
        Nat.lt_of_le_of_lt ((List.drop_sublist _ _).count_le 10) hw
      rw [if_neg (by omega)]
      have heq : content.length - (k' + 1) * 1024 = content.length - 1024 * (k' + 1) := by
        omega
      rw [heq]
      have h2 := ih (k' + 1) (by simp only [BUFSIZ]; omega) (by simp only [BUFSIZ]; omega)
      simp only [BUFSIZ] at h2
      exact h2

/-! ### C1 -/

/-- C1, counterexample: `tail(p, 1)` on a file whose single (1025-byte) line
spans the 1024-byte block boundary does NOT return the last `min(1, 1)` lines
of the file: the early break of the backward scan fires after one block with
the line cut at the block boundary, and the returned line is only the last
1023 bytes of the true line. -/
theorem tail_truncates_long_line_cex :
    splitlines longLineContent = [List.replicate 1025 120] ∧
    tail fsLongLine ['p'] 1 = some (.ok [List.replicate 1023 120]) ∧
    tail fsLongLine ['p'] 1 ≠
      some (.ok (takeLast (min (1 : Int).toNat (splitlines longLineContent).length)
        (splitlines longLineContent))) := by
  have h1 : splitlines longLineContent = [List.replicate 1025 120] :=
    splitlines_append_nl (fun h => absurd (List.eq_of_mem_replicate h) (by decide))
  have hlen : longLineContent.length = 1026 := by
    simp [longLineContent]
  have hdrop : longLineContent.drop (longLineContent.length - 1 * BUFSIZ) =
      List.replicate 1023 120 ++ [10] := by
    rw [hlen]
    have hidx : 1026 - 1 * BUFSIZ = 2 := by simp [BUFSIZ]
    rw [hidx, show longLineContent = List.replicate 1025 120 ++ [10] from rfl,
      List.drop_append_of_le_length (by simp)]
    simp [List.drop_replicate]
  have htake : (List.replicate 1023 (120 : Nat) ++ [10]).take BUFSIZ =
      List.replicate 1023 (120 : Nat) ++ [10] :=
    List.take_of_length_le (by simp [BUFSIZ])
  have hcount : (List.replicate 1023 (120 : Nat) ++ [10]).count 10 = 1 := by
    rw [List.count_append, List.count_replicate]
    norm_num
  have hscan : tailScan longLineContent 1 (1026 + 1) 1 [] =
      some (List.replicate 1023 (120 : Nat) ++ [10]) := by
    rw [tailScan_succ]
    rw [if_neg (show ¬(longLineContent.length ≤ 1 * BUFSIZ) by rw [hlen]; simp [BUFSIZ])]
    rw [hdrop, htake, List.append_nil]
    rw [if_pos (by rw [hcount])]
  have hsplit23 : splitlines (List.replicate 1023 (120 : Nat) ++ [10]) =
      [List.replicate 1023 (120 : Nat)] :=
    splitlines_append_nl (fun h => absurd (List.eq_of_mem_replicate h) (by decide))
  have htail : tail fsLongLine ['p'] 1 = some (.ok [List.replicate 1023 120]) := by
    unfold tail
    rw [if_neg (by decide)]
    rw [show openPath fsLongLine ['p'] = .ok (1, 1) from rfl]
    dsimp only
    rw [show fsContent fsLongLine (1, 1) = longLineContent from rfl]
    rw [show ((1 : Int)).toNat = 1 from rfl, hlen, hscan]
    dsimp only
    rw [hsplit23]
    simp [takeLast]
  refine ⟨h1, htail, ?_⟩
  rw [htail, h1]
  have h2 : (takeLast (min (1 : Int).toNat [List.replicate 1025 (120 : Nat)].length)
      [List.replicate 1025 (120 : Nat)]) = [List.replicate 1025 (120 : Nat)] := by
    simp [takeLast]
  rw [h2]
  intro hcontra
  have h5 := Except.ok.inj (Option.some.inj hcontra)
  have h6 : List.replicate 1023 (120 : Nat) = List.replicate 1025 120 := by
    injection h5
  have h7 := congrArg List.length h6
  simp [List.length_replicate] at h7

/-- C1 (amended): `tail(path, N)` with `N ≥ 1` on an existing regular file
returns the last `min(N, K)` of the file's `K` lines in original order,
provided the file fits in one scan block (≤ 1024 bytes) or `N` exceeds the
file's newline count (then the scan reads the whole file; in particular this
covers every file when `N` exceeds the number of newlines, and every
zero-or-single-block file for all `N`).  For larger files with `N` at most
the newline count the scan may stop at a block boundary inside the earliest
returned line and truncate it (see the counterexample). -/
theorem tail_last_lines (fs : Fs) (fname : List Char) (fid : Fid) (content : List Nat)
    (w : Int) (hopen : openPath fs fname = .ok fid) (hcontent : fsContent fs fid = content)
    (hw : 1 ≤ w) (hcase : content.length ≤ BUFSIZ ∨ content.count 10 < w.toNat) :
    tail fs fname w =
      some (.ok (takeLast (min w.toNat (splitlines content).length) (splitlines content))) := by
  unfold tail
  rw [if_neg (by omega), hopen]
  dsimp only
  rw [hcontent]
  rcases hcase with hsb | hbig
  · rw [tailScan_single content w.toNat content.length hsb]
    dsimp only
    rw [takeLast_min w.toNat (splitlines content)]
  · have h0 : content.drop (content.length - BUFSIZ * 0) = [] := by
      simp [List.drop_length]
    have hwhole := tailScan_whole content w.toNat hbig content.length 0
      (by simp) (by simp only [BUFSIZ]; omega)
    rw [h0] at hwhole
    rw [Nat.zero_add] at hwhole
    rw [hwhole]
    dsimp only
    have hL : (splitlines content).length ≤ w.toNat :=
      le_trans (length_splitlines_le content) (by omega)
    rw [takeLast_of_length_le hL, min_eq_right hL, takeLast_of_length_le (le_refl _)]

/-- C1, witness: the amended theorem applied to the 4-byte two-line file
`a\nb\n` with window 1. -/
theorem tail_last_lines_witness :
    tail fsTwoLines ['w'] 1 =
      some (.ok (takeLast (min (1 : Int).toNat (splitlines [97, 10, 98, 10]).length)
        (splitlines [97, 10, 98, 10]))) :=
  tail_last_lines fsTwoLines ['w'] (1, 1) [97, 10, 98, 10] 1 (by decide) (by decide)
    (by decide) (Or.inl (by decide))

/-! ### C7 -/

/-- C7: for every window value `N ≤ 0`, `tail(path, N)` raises the
descriptive `ValueError` immediately — before the file is opened or read
(the statement holds for every filesystem and every path, even absent ones),
and never coerces the value to a valid window. -/
theorem tail_rejects_nonpositive_window (fs : Fs) (fname : List Char) (w : Int) (h : w ≤ 0) :
    tail fs fname w =
      some (.error (.valueError ("invalid window value " ++ toString w))) := by
  unfold tail
  rw [if_pos h]

/-- C7, witness: window 0 on an empty filesystem (the path does not even
exist, yet the `ValueError` is raised rather than an ENOENT error). -/
theorem tail_rejects_nonpositive_window_witness :
    tail ⟨[], []⟩ ['x'] 0 =
      some (.error (.valueError ("invalid window value " ++ toString (0 : Int)))) :=
  tail_rejects_nonpositive_window ⟨[], []⟩ ['x'] 0 (by decide)

/-! ### C10 -/

/-- C10: the backward-scan loop of `tail` terminates on every file and every
window — `content.length + 1` fuel units are never exhausted (each non-final
iteration needs `BUFSIZ * k < fsize`, so the block index is decremented at
most `fsize` times before the final step fires) — and on a zero-length file
the single final step performs a zero-byte read and `tail` returns the empty
list without raising. -/
theorem tail_scan_terminates :
    (∀ (fs : Fs) (fname : List Char) (w : Int), (tail fs fname w).isSome = true) ∧
    (∀ (fs : Fs) (fname : List Char) (fid : Fid) (w : Int),
      openPath fs fname = .ok fid → fsContent fs fid = [] → 1 ≤ w →
      tail fs fname w = some (.ok [])) := by
  constructor
  · intro fs fname w
    unfold tail
    by_cases hw : w ≤ 0
    · rw [if_pos hw]
      rfl
    · rw [if_neg hw]
      cases hop : openPath fs fname with
      | error e => rfl
      | ok fid =>
        dsimp only
        have hs := tailScan_isSome (fsContent fs fid) w.toNat (fsContent fs fid).length 1 []
          (by simp only [BUFSIZ]; omega)
        cases hts : tailScan (fsContent fs fid) w.toNat ((fsContent fs fid).length + 1) 1 [] with
        | none =>
          rw [hts] at hs
          simp at hs
        | some data =>
          rfl
  · intro fs fname fid w hop hc hw
    unfold tail
    rw [if_neg (by omega), hop]
    dsimp only
    simp only [hc, List.length_nil]
    rw [tailScan_succ]
    simp [BUFSIZ, takeLast, splitlines]

/-- C10, witness: the zero-length-file part applied to a concrete empty
file, and the termination part applied at the same input. -/
theorem tail_scan_terminates_witness :
    tail fsEmptyFile ['e'] 3 = some (.ok []) :=
  tail_scan_terminates.2 fsEmptyFile ['e'] (1, 1) 3 (by decide) (by decide) (by decide)

/-! ### C9 -/

theorem pyFind_append {c : Char} {l1 : List Char} (h : c ∉ l1) (l2 : List Char) :
    pyFind c (l1 ++ c :: l2) = l1.length := by
  induction l1 with
  | nil => simp [pyFind]
  | cons a rest ih =>
    have ha : a ≠ c := fun hh => h (hh ▸ List.mem_cons_self a rest)
    have hrest : c ∉ rest := fun hh => h (List.mem_cons_of_mem a hh)
    simp [pyFind, ha, ih hrest]

/-- C9: a watch-entry name containing no `{` placeholder is returned
unchanged by path resolution, and a name containing exactly one `{fmt}`
segment resolves to the text before `{`, then the reference time formatted
per `fmt` (the injected `strftime`), then the text after `}`, with the
surrounding text preserved literally. -/
theorem resolve_template_name (strftime : List Char → List Char)
    (name pre fmt post : List Char) :
    ('{' ∉ name → resolveName strftime name = name) ∧
    (name = pre ++ '{' :: (fmt ++ '}' :: post) →
      '{' ∉ pre → '}' ∉ pre → '{' ∉ fmt → '}' ∉ fmt →
      resolveName strftime name = pre ++ strftime fmt ++ post) := by
  constructor
  · intro h
    unfold resolveName
    rw [if_neg h]
  · intro hname h1 h2 h3 h4
    subst hname
    unfold resolveName
    rw [if_pos (by simp)]
    dsimp only
    have hi : pyFind '{' (pre ++ '{' :: (fmt ++ '}' :: post)) = pre.length :=
      pyFind_append h1 _
    have hj : pyFind '}' (pre ++ '{' :: (fmt ++ '}' :: post)) =
        pre.length + 1 + fmt.length := by
      have hassoc : pre ++ '{' :: (fmt ++ '}' :: post) =
          (pre ++ '{' :: fmt) ++ '}' :: post := by
        simp
      rw [hassoc, pyFind_append (fun hh => by
        rcases List.mem_append.mp hh with h5 | h5
        · exact h2 h5
        · rcases List.mem_cons.mp h5 with h6 | h6
          · exact absurd h6 (by decide)
          · exact h4 h6)]
      simp [List.length_append]
      omega
    rw [hi, hj]
    have e4 : pre.length + 1 + fmt.length - (pre.length + 1) = fmt.length := by omega
    have e1 : (pre ++ '{' :: (fmt ++ '}' :: post)).take pre.length = pre :=
      List.take_left pre _
    have e2 : (pre ++ '{' :: (fmt ++ '}' :: post)).drop (pre.length + 1) =
        fmt ++ '}' :: post := by
      have hassoc : pre ++ '{' :: (fmt ++ '}' :: post) =
          (pre ++ ['{']) ++ (fmt ++ '}' :: post) := by
        simp
      rw [hassoc]
      exact List.drop_left' (by simp)
    have e3 : (pre ++ '{' :: (fmt ++ '}' :: post)).drop (pre.length + 1 + fmt.length + 1) =
        post := by
      have hassoc : pre ++ '{' :: (fmt ++ '}' :: post) =
          ((pre ++ '{' :: fmt) ++ ['}']) ++ post := by
        simp
      rw [hassoc]
      refine List.drop_left' ?_
      simp
      omega
    rw [e4, e1, e2, e3, List.take_left fmt _]

/-- C9, witness: the placeholder case at `a{d}b` with a formatter returning
`25`, and the no-placeholder case at `ab`. -/
theorem resolve_template_name_witness :
    resolveName (fun _ => ['2', '5']) ['a', '{', 'd', '}', 'b'] = ['a', '2', '5', 'b'] ∧
    resolveName (fun _ => ['2', '5']) ['a', 'b'] = ['a', 'b'] := by
  constructor
  · exact (resolve_template_name (fun _ => ['2', '5']) ['a', '{', 'd', '}', 'b']
      ['a'] ['d'] ['b']).2 rfl (by decide) (by decide) (by decide) (by decide)
  · exact (resolve_template_name (fun _ => ['2', '5']) ['a', 'b'] [] [] []).1 (by decide)

/-! ### C8 -/

/-- C8: in reconciliation's candidate pass, an ENOENT stat failure on an
entry's resolved path skips exactly that entry (the rest of the pass is
unchanged), while any other stat failure propagates; in `watch`, an ENOENT
open/stat failure leaves the watcher state entirely unchanged with no error,
while any other failure propagates unmodified. -/
theorem enoent_swallowed_other_errors_propagate (strftime : List Char → List Char)
    (fs : Fs) (lw : LW) :
    (∀ (name : List Char) (typ : Nat) (rest : List (List Char × Nat)),
      statPath fs (resolveName strftime name) = .error .ioENOENT →
      collect strftime fs ((name, typ) :: rest) = collect strftime fs rest) ∧
    (∀ (name : List Char) (typ : Nat) (rest : List (List Char × Nat)),
      statPath fs (resolveName strftime name) = .error .ioOther →
      collect strftime fs ((name, typ) :: rest) = .error .ioOther) ∧
    (∀ (fname : List Char) (typ : Nat),
      openPath fs fname = .error .ioENOENT → watch fs lw fname typ = .ok lw) ∧
    (∀ (fname : List Char) (typ : Nat),
      openPath fs fname = .error .ioOther → watch fs lw fname typ = .error .ioOther) := by
  refine ⟨?_, ?_, ?_, ?_⟩
  · intro name typ rest h
    simp only [collect]
    rw [h]
  · intro name typ rest h
    simp only [collect]
    rw [h]
  · intro fname typ h
    unfold watch
    rw [h]
  · intro fname typ h
    unfold watch
    rw [h]

/-- C8, witness: the four parts applied to a filesystem with a missing path
`m` and a denied path `d`. -/
theorem enoent_swallowed_other_errors_propagate_witness :
    collect (fun s => s) fsDeniedMissing [(['m'], 5)] = .ok [] ∧
    collect (fun s => s) fsDeniedMissing [(['d'], 5)] = .error .ioOther ∧
    watch fsDeniedMissing ⟨[], [], 9⟩ ['m'] 5 = .ok ⟨[], [], 9⟩ ∧
    watch fsDeniedMissing ⟨[], [], 9⟩ ['d'] 5 = .error .ioOther := by
  refine ⟨?_, ?_, ?_, ?_⟩
  · exact (enoent_swallowed_other_errors_propagate (fun s => s) fsDeniedMissing
      ⟨[], [], 9⟩).1 ['m'] 5 [] (by decide)
  · exact (enoent_swallowed_other_errors_propagate (fun s => s) fsDeniedMissing
      ⟨[], [], 9⟩).2.1 ['d'] 5 [] (by decide)
  · exact (enoent_swallowed_other_errors_propagate (fun s => s) fsDeniedMissing
      ⟨[], [], 9⟩).2.2.1 ['m'] 5 (by decide)
  · exact (enoent_swallowed_other_errors_propagate (fun s => s) fsDeniedMissing
      ⟨[], [], 9⟩).2.2.2 ['d'] 5 (by decide)

/-! ### Helper lemmas about the incremental reader -/

theorem flatten_splitKeepNL (l : List Nat) : (splitKeepNL l).flatten = l := by
  induction l with
  | nil => simp [splitKeepNL]
  | cons c rest ih =>
    by_cases hc : c = 10
    · subst hc
      simp only [splitKeepNL, List.flatten_cons, ih]
      rfl
    · simp only [splitKeepNL, if_neg hc]
      cases hs : splitKeepNL rest with
      | nil =>
        have hrest : rest = [] := by
          rw [← ih, hs]
          rfl
        subst hrest
        simp
      | cons a as =>
        rw [hs] at ih
        simp only [List.flatten_cons, List.cons_append] at ih ⊢
        rw [ih]

theorem nil_not_mem_splitKeepNL (l : List Nat) : [] ∉ splitKeepNL l := by
  induction l with
  | nil => simp [splitKeepNL]
  | cons c rest ih =>
    by_cases hc : c = 10
    · subst hc
      simp only [splitKeepNL]
      intro hmem
      rcases List.mem_cons.mp hmem with h | h
      · exact List.noConfusion h
      · exact ih h
    · simp only [splitKeepNL, if_neg hc]
      cases hs : splitKeepNL rest with
      | nil => simp
      | cons a as =>
        intro hmem
        rcases List.mem_cons.mp hmem with h | h
        · exact List.noConfusion h
        · exact ih (hs ▸ List.mem_cons_of_mem a h)

theorem takeHint_eq_take (ls : List (List Nat)) : ∀ hint : Nat,
    ∃ m, takeHint ls hint = ls.take m ∧ m ≤ ls.length ∧ (ls ≠ [] → 1 ≤ m) := by
  induction ls with
  | nil =>
    intro hint
    exact ⟨0, by simp [takeHint], by simp, by simp⟩
  | cons l rest ih =>
    intro hint
    by_cases h : hint ≤ l.length
    · exact ⟨1, by simp [takeHint, h], by simp, fun _ => le_refl 1⟩
    · obtain ⟨m, hm1, hm2, _⟩ := ih (hint - l.length)
      refine ⟨m + 1, ?_, by simp; omega, fun _ => by omega⟩
      simp only [takeHint, if_neg h, List.take_succ_cons, hm1]

theorem deliveredBytes_nil : deliveredBytes [] = [] := rfl

theorem deliveredBytes_cb3_cons (n : List Char) (ls : List (List Nat)) (t : Nat)
    (evs : List Ev) :
    deliveredBytes (Ev.cb3 n ls t :: evs) = ls.flatten ++ deliveredBytes evs := by
  simp [deliveredBytes, evBytes]

theorem deliveredBytes_append (evs1 evs2 : List Ev) :
    deliveredBytes (evs1 ++ evs2) = deliveredBytes evs1 ++ deliveredBytes evs2 := by
  simp [deliveredBytes]

/-- Core property of `LogWatcher.readlines`: with enough fuel the
`while True` loop terminates having delivered, through three-argument
callback calls only, exactly the bytes between the handle's position and
end-of-file, leaving the handle at end-of-file. -/
theorem readlines_drains (name : List Char) (typ sh : Nat) (content : List Nat) :
    ∀ fuel pos, pos ≤ content.length → content.length < pos + fuel →
      ∃ evs, readlines name typ sh content fuel pos = some (evs, content.length) ∧
        deliveredBytes evs = content.drop pos ∧
        ∀ e ∈ evs, ∃ ls, e = Ev.cb3 name ls typ := by
  intro fuel
  induction fuel with
  | zero =>
    intro pos h1 h2
    omega
  | succ n ih =>
    intro pos h1 h2
    by_cases hrem : content.drop pos = []
    · have hpos : pos = content.length := by
        have := List.drop_eq_nil_iff.mp hrem
        omega
      refine ⟨[], ?_, ?_, by simp⟩
      · simp only [readlines, fileReadlines, hrem]
        simp [splitKeepNL, takeHint, hpos]
      · simp [deliveredBytes_nil, hrem]
    · have hLne : splitKeepNL (content.drop pos) ≠ [] := fun hh =>
        hrem (by rw [← flatten_splitKeepNL (content.drop pos), hh]; rfl)
      obtain ⟨m, hm1, hm2, hm3⟩ := takeHint_eq_take (splitKeepNL (content.drop pos)) sh
      have hm4 : 1 ≤ m := hm3 hLne
      obtain ⟨a, as, hLc⟩ := List.exists_cons_of_ne_nil hLne
      have ha : a ≠ [] := fun hh =>
        nil_not_mem_splitKeepNL (content.drop pos)
          (by rw [hLc, hh]; exact List.mem_cons_self _ _)
      obtain ⟨m', rfl⟩ : ∃ m', m = m' + 1 := ⟨m - 1, by omega⟩
      have hlines : fileReadlines (content.drop pos) sh = a :: as.take m' := by
        rw [fileReadlines, hm1, hLc, List.take_succ_cons]
      have hsplit : content.drop pos = (a :: as.take m').flatten ++ (as.drop m').flatten := by
        conv_lhs => rw [← flatten_splitKeepNL (content.drop pos), hLc]
        rw [← List.flatten_append]
        congr 1
        rw [List.cons_append, List.take_append_drop]
      have hb1 : 1 ≤ (a :: as.take m').flatten.length := by
        simp only [List.flatten_cons, List.length_append]
        have := List.length_pos.mpr ha
        omega
      have hble : pos + (a :: as.take m').flatten.length ≤ content.length := by
        have hlenrem : (content.drop pos).length = content.length - pos :=
          List.length_drop pos content
        have := congrArg List.length hsplit
        rw [List.length_append] at this
        omega
      have hdropb : content.drop (pos + (a :: as.take m').flatten.length) =
          (as.drop m').flatten := by
        rw [← List.drop_drop, hsplit, List.drop_left]
      obtain ⟨evs', hrec, hdel, hshape⟩ :=
        ih (pos + (a :: as.take m').flatten.length) hble (by omega)
      refine ⟨Ev.cb3 name (a :: as.take m') typ :: evs', ?_, ?_, ?_⟩
      · simp only [readlines]
        rw [hlines, if_neg (by simp), hrec]
      · rw [deliveredBytes_cb3_cons, hdel, hdropb, ← hsplit]
      · intro e he
        rcases List.mem_cons.mp he with h | h
        · exact ⟨a :: as.take m', h⟩
        · exact hshape e h

/-! ### C6 -/

/-- C6: `unwatch` performs one final incremental read, delivering exactly
the not-yet-delivered bytes of the handle's storage object through
three-argument callback calls, and only afterwards emits the close of the
handle, with the entry removed from the map in the resulting state; and in
the rotation scenario (file replaced under the same name with lines `L1`
still undelivered) the reconcile cycle delivers `L1` and then raises, so no
content of the replacement file is ever delivered before — or after — `L1`. -/
theorem unwatch_flushes_before_close_and_remove (fs : Fs) (lw : LW) (fid : Fid) (wf : WFile)
    (hpos : wf.pos ≤ (fsContent fs fid).length) :
    (∃ devs, unwatch fs lw fid wf =
        some (devs ++ [Ev.closed wf.name], { lw with files_map := mapErase fid lw.files_map }) ∧
      deliveredBytes devs = (fsContent fs fid).drop wf.pos ∧
      ∀ e ∈ devs, ∃ ls, e = Ev.cb3 wf.name ls wf.typ) ∧
    update_files (fun s => s) fsRotated lwRotated =
      some ([Ev.cb3 ['l'] [[76, 49, 10]] 7, Ev.closed ['l']], .error .typeError) := by
  constructor
  · obtain ⟨evs, hrec, hdel, hshape⟩ := readlines_drains wf.name wf.typ lw.sizehint
      (fsContent fs fid) ((fsContent fs fid).length + 1) wf.pos hpos (by omega)
    refine ⟨evs, ?_, hdel, hshape⟩
    unfold unwatch
    dsimp only
    rw [hrec]
  · decide

/-- C6, witness: the flush-order part applied to the two-line file with
cursor 2 (the second line `b\n` is still undelivered). -/
theorem unwatch_flushes_before_close_and_remove_witness :
    ∃ devs, unwatch fsTwoLines lwTwoLines (1, 1) ⟨['w'], 2, 3⟩ =
        some (devs ++ [Ev.closed ['w']],
          { lwTwoLines with files_map := mapErase (1, 1) lwTwoLines.files_map }) ∧
      deliveredBytes devs = (fsContent fsTwoLines (1, 1)).drop 2 ∧
      ∀ e ∈ devs, ∃ ls, e = Ev.cb3 ['w'] ls 3 :=
  (unwatch_flushes_before_close_and_remove fsTwoLines lwTwoLines (1, 1) ⟨['w'], 2, 3⟩
    (by decide)).1

/-! ### C2 -/

/-- Invariant of the per-file polling run: after any number of grow-and-read
cycles, the bytes delivered so far plus the bytes still beyond the cursor
make up exactly the bytes beyond the starting cursor, and after at least one
cycle the cursor sits at end-of-file. -/
theorem loopCycles_spec (name : List Char) (typ sh : Nat) :
    ∀ (appends : List (List Nat)) (c0 : List Nat) (pos0 : Nat), pos0 ≤ c0.length →
      ∃ evs pf, loopCycles name typ sh c0 pos0 appends = some (evs, pf) ∧
        deliveredBytes evs ++ (c0 ++ appends.flatten).drop pf =
          (c0 ++ appends.flatten).drop pos0 ∧
        (appends = [] → pf = pos0) ∧
        (appends ≠ [] → pf = (c0 ++ appends.flatten).length) ∧
        (∀ e ∈ evs, ∃ ls, e = Ev.cb3 name ls typ) := by
  intro appends
  induction appends with
  | nil =>
    intro c0 pos0 h
    refine ⟨[], pos0, rfl, ?_, fun _ => rfl, fun hne => absurd rfl hne, by simp⟩
    simp [deliveredBytes_nil]
  | cons a rest ih =>
    intro c0 pos0 h
    obtain ⟨evs1, hrec1, hdel1, hshape1⟩ := readlines_drains name typ sh (c0 ++ a)
      ((c0 ++ a).length + 1) pos0 (by simp; omega) (by omega)
    obtain ⟨evs2, pf, hrec2, hdel2, hpf_nil, hpf_ne, hshape2⟩ :=
      ih (c0 ++ a) (c0 ++ a).length (le_refl _)
    have hT : c0 ++ (a :: rest).flatten = (c0 ++ a) ++ rest.flatten := by
      simp
    refine ⟨evs1 ++ evs2, pf, ?_, ?_, ?_, ?_, ?_⟩
    · simp only [loopCycles]
      rw [hrec1]
      dsimp only
      rw [hrec2]
    · rw [hT, deliveredBytes_append, List.append_assoc, hdel2, List.drop_left, hdel1]
      conv_rhs => rw [List.drop_append_of_le_length (show pos0 ≤ (c0 ++ a).length by
        simp; omega)]
    · intro hh
      exact absurd hh (by simp)
    · intro _
      rw [hT]
      by_cases hr : rest = []
      · subst hr
        rw [hpf_nil rfl]
        simp
      · rw [hpf_ne hr]
    · intro e he
      rcases List.mem_append.mp he with hh | hh
      · exact hshape1 e hh
      · exact hshape2 e hh

/-- C2: for a file that only grows by appends across poll cycles (cycle i
appends `aᵢ` then drains the handle), the concatenation of all bytes handed
to the callback equals exactly the file content beyond the cursor's starting
position — no byte delivered twice, none skipped — and every delivery is a
three-argument callback call for this file; the handle ends at end-of-file. -/
theorem loop_delivers_appended_content_exactly (name : List Char) (typ sh : Nat)
    (c0 : List Nat) (pos0 : Nat) (appends : List (List Nat))
    (hpos : pos0 ≤ c0.length) (hne : appends ≠ []) :
    ∃ evs, loopCycles name typ sh c0 pos0 appends =
        some (evs, (c0 ++ appends.flatten).length) ∧
      deliveredBytes evs = (c0 ++ appends.flatten).drop pos0 ∧
      ∀ e ∈ evs, ∃ ls, e = Ev.cb3 name ls typ := by
  obtain ⟨evs, pf, h1, h2, _, hne', h3⟩ := loopCycles_spec name typ sh appends c0 pos0 hpos
  have hpf := hne' hne
  rw [hpf] at h1 h2
  rw [List.drop_length, List.append_nil] at h2
  exact ⟨evs, h1, h2, h3⟩

/-- C2, witness: starting at end-of-file (cursor 2) of `x\n`, appending
`a\n` then `b` over two cycles. -/
theorem loop_delivers_appended_content_exactly_witness :
    ∃ evs, loopCycles ['l'] 3 1048576 [120, 10] 2 [[97, 10], [98]] =
        some (evs, ([120, 10] ++ [[97, 10], [98]].flatten).length) ∧
      deliveredBytes evs = ([120, 10] ++ [[97, 10], [98]].flatten).drop 2 ∧
      ∀ e ∈ evs, ∃ ls, e = Ev.cb3 ['l'] ls 3 :=
  loop_delivers_appended_content_exactly ['l'] 3 1048576 [120, 10] 2 [[97, 10], [98]]
    (by decide) (by decide)

/-! ### C3 -/

/-- C3: the rotation branch of reconciliation does NOT complete the cycle
with the new identity watched.  In the rotation scenario the recorded path
still exists with a different identity (`(1,9)` vs the recorded `(1,8)`);
the code unwatches the old entry (flushing it) and then executes
`self.watch(file.name)` (line 179) — a one-argument call to the
two-argument method `watch(fname, _type)` — so the cycle aborts with a
`TypeError` instead of re-watching the path. -/
theorem rotation_rewatch_raises_type_error :
    statPath fsRotated ['l'] = .ok ⟨1, 9, true⟩ ∧
    lwRotated.files_map = [((1, 8), ⟨['l'], 0, 7⟩)] ∧
    update_files (fun s => s) fsRotated lwRotated =
      some ([Ev.cb3 ['l'] [[76, 49, 10]] 7, Ev.closed ['l']], .error .typeError) := by
  refine ⟨by decide, by decide, by decide⟩

/-! ### C4 -/

/-- C4: the startup tail delivery in the constructor invokes the consumer
callback with TWO arguments (`self._callback(file.name, lines)`, line 65),
not three: constructing a watcher over the one-line file `g` with
`tail_lines = 1` emits a two-argument callback event (`Ev.cb2`), which
raises `TypeError` against the three-parameter callback the module's own
usage example defines. -/
theorem constructor_tail_delivery_uses_two_argument_callback :
    (initLW (fun s => s) fsInitTail [(['g'], 4)] 1 1048576).map Prod.fst =
      some [Ev.cb2 ['g'] [[97]]] := by
  decide

/-! ### C5 -/

/-- C5, counterexample: watching the freshly discovered two-byte file `n`
leaves the new entry's read cursor at 0, not at the file's end-of-file 2. -/
theorem watch_cursor_not_at_eof_cex :
    watch fsNewFile ⟨[], [], 64⟩ ['n'] 9 =
      .ok ⟨[], [((2, 5), ⟨['n'], 0, 9⟩)], 64⟩ ∧
    (fsContent fsNewFile (2, 5)).length = 2 ∧
    (List.lookup (2, 5) [((2, 5), (⟨['n'], 0, 9⟩ : WFile))]).map WFile.pos = some 0 ∧
    some 0 ≠ some (fsContent fsNewFile (2, 5)).length := by
  refine ⟨by decide, by decide, by decide, by decide⟩

/-- C5 (amended): every file newly added to the watch table by the `watch`
operation gets its read cursor at position 0 (start of file) — its entire
current content will be delivered as new — not at end-of-file; the cursors
of the initially present files are moved to end-of-file (the size `getsize`
reports for their path) by the constructor's startup loop, which may also
seed delivery with the last N lines via the tail reader. -/
theorem watch_cursor_at_zero_and_init_seeks_eof (fs : Fs) :
    (∀ (lw : LW) (fname : List Char) (typ : Nat) (fid : Fid),
      openPath fs fname = .ok fid →
      watch fs lw fname typ =
        .ok { lw with files_map := mapInsert fid ⟨fname, 0, typ⟩ lw.files_map }) ∧
    (∀ (tl : Int) (entries : List (Fid × WFile)) (evs : List Ev)
        (entries' : List (Fid × WFile)),
      initFiles fs tl entries = some (evs, .ok entries') →
      ∀ p ∈ entries', ∃ wf, (p.1, wf) ∈ entries ∧ p.2.name = wf.name ∧
        p.2.typ = wf.typ ∧ getsize fs wf.name = .ok p.2.pos) := by
  constructor
  · intro lw fname typ fid h
    unfold watch
    rw [h]
  · intro tl entries
    induction entries with
    | nil =>
      intro evs entries' h p hp
      simp only [initFiles] at h
      have h3 : ([] : List (Fid × WFile)) = entries' :=
        Except.ok.inj (congrArg Prod.snd (Option.some.inj h))
      rw [← h3] at hp
      exact absurd hp (List.not_mem_nil p)
    | cons hd rest ih =>
      intro evs entries' h p hp
      obtain ⟨fid, wf⟩ := hd
      simp only [initFiles] at h
      cases hg : getsize fs wf.name with
      | error e =>
        simp only [hg] at h
        exact Except.noConfusion (congrArg Prod.snd (Option.some.inj h))
      | ok sz =>
        simp only [hg] at h
        cases hstep : initTailStep fs tl wf.name with
        | none =>
          simp only [hstep] at h
          exact Option.noConfusion h
        | some pr =>
          obtain ⟨evs1, err⟩ := pr
          cases err with
          | some e =>
            simp only [hstep] at h
            exact Except.noConfusion (congrArg Prod.snd (Option.some.inj h))
          | none =>
            simp only [hstep] at h
            cases hrest : initFiles fs tl rest with
            | none =>
              simp only [hrest] at h
              exact Option.noConfusion h
            | some pr2 =>
              obtain ⟨evs2, r2⟩ := pr2
              cases r2 with
              | error e =>
                simp only [hrest] at h
                exact Except.noConfusion (congrArg Prod.snd (Option.some.inj h))
              | ok rest' =>
                simp only [hrest] at h
                have hent : (fid, { wf with pos := sz }) :: rest' = entries' :=
                  Except.ok.inj (congrArg Prod.snd (Option.some.inj h))
                rw [← hent] at hp
                rcases List.mem_cons.mp hp with hph | hpt
                · subst hph
                  exact ⟨wf, List.mem_cons_self _ _, rfl, rfl, hg⟩
                · obtain ⟨wf0, hmem, hname, htyp, hsize⟩ := ih evs2 rest' hrest p hpt
                  exact ⟨wf0, List.mem_cons_of_mem _ hmem, hname, htyp, hsize⟩

/-- C5, witness: the watch part applied to the new-file scenario, recording
the cursor-0 entry. -/
theorem watch_cursor_at_zero_witness :
    watch fsNewFile ⟨[], [], 64⟩ ['n'] 9 =
      .ok ⟨[], mapInsert (2, 5) ⟨['n'], 0, 9⟩ [], 64⟩ :=
  (watch_cursor_at_zero_and_init_seeks_eof fsNewFile).1 ⟨[], [], 64⟩ ['n'] 9 (2, 5)
    (by decide)
